import Mathlib

/-
Verification of the line-oriented diff engine `computeLineDiff` from
`src/features/json/JsonDiff.tsx`.

The engine is embedded shallowly: JavaScript strings become `String`,
`text.split('\n')` becomes `splitCharList` on the character list,
`line.replace(/\s+$/g, '')` becomes `rstrip`, the two nested `for` loops
filling the LCS matrix become the iterative row builders `rowAux` /
`buildRow` / `dpRows`, the backtracking `while` loops become the
recursive `backtrack`, and the status projection loop becomes a fold of
`applyOp` over the reversed op list.
-/

namespace WebTool

/-- Per-line status, the `LineStatus` union type of `JsonDiff.tsx`. -/
inductive LineStatus where
  | unchanged
  | added
  | removed
  | modified
deriving DecidableEq, Repr, BEq

/-- Result of `computeLineDiff`: one status list per side. -/
structure LineDiffResult where
  oldStatuses : List LineStatus
  newStatuses : List LineStatus
deriving DecidableEq, Repr

/-- Membership test for the JavaScript regex class `\s`
(ECMAScript WhiteSpace and LineTerminator code points). -/
def isJsSpace (c : Char) : Bool :=
  c.toNat = 0x09 || c.toNat = 0x0a || c.toNat = 0x0b || c.toNat = 0x0c ||
  c.toNat = 0x0d || c.toNat = 0x20 || c.toNat = 0xa0 || c.toNat = 0x1680 ||
  (0x2000 ≤ c.toNat && c.toNat ≤ 0x200a) || c.toNat = 0x2028 ||
  c.toNat = 0x2029 || c.toNat = 0x202f || c.toNat = 0x205f ||
  c.toNat = 0x3000 || c.toNat = 0xfeff

/-- Strip of the trailing whitespace run from a character list, the effect
of the JavaScript replacement of the pattern "whitespace-run at end of
string" by the empty string (line 18/19 of `JsonDiff.tsx`). -/
def rstripChars (cs : List Char) : List Char :=
  (cs.reverse.dropWhile isJsSpace).reverse

/-- Comparison-key normalization of one line. -/
def rstrip (s : String) : String := String.mk (rstripChars s.data)

/-- JavaScript split on the newline character, over the character list:
splitting the empty list yields one empty line, and every occurrence of
the newline character opens a new line. -/
def splitCharList : List Char → List (List Char)
  | [] => [[]]
  | c :: cs =>
    match splitCharList cs with
    | [] => [[]]
    | l :: ls => if c = '\n' then [] :: l :: ls else (c :: l) :: ls

/-- Split of a text into lines (lines 15/16 of `computeLineDiff`). -/
def splitLines (s : String) : List String :=
  (splitCharList s.data).map String.mk

/-- Comparison keys of a text: its lines with trailing whitespace
stripped (lines 18/19 of `computeLineDiff`). -/
def lineKeys (s : String) : List String := (splitLines s).map rstrip

/-- Inner loop over column index `j` filling one row of the LCS matrix:
`ks` is the remainder of the new-side keys from column `j` on, `prev`
the remainder of row `i-1` from column `j` on, `diag` the cell above
left, `left` the cell just written in this row. -/
def rowAux (okey : String) : List String → List Nat → Nat → Nat → List Nat
  | [], _, _, _ => []
  | k :: ks, prev, diag, left =>
    let v := if okey = k then diag + 1 else max (prev.headD 0) left
    v :: rowAux okey ks prev.tail (prev.headD 0) v

/-- One iteration of the outer loop of the matrix builder: builds row `i`
of the matrix from row `i-1` (held in `prev`). -/
def buildRow (okey : String) (prev : List Nat) (nk : List String) : List Nat :=
  0 :: rowAux okey nk prev.tail (prev.headD 0) 0

/-- Outer loop of the matrix builder: one row per remaining old-side key. -/
def dpRowsFrom (prev : List Nat) (nk : List String) : List String → List (List Nat)
  | [] => []
  | okey :: oks =>
    let r := buildRow okey prev nk
    r :: dpRowsFrom r nk oks

/-- The full `(n+1) × (m+1)` LCS matrix `dp` built by the two nested
loops of `computeLineDiff` (lines 25–35). -/
def dpRows (ok nk : List String) : List (List Nat) :=
  let row0 := List.replicate (nk.length + 1) 0
  row0 :: dpRowsFrom row0 nk ok

/-- Read of the matrix entry `dp[i][j]`. -/
def dpCell (ok nk : List String) (i j : Nat) : Nat :=
  ((dpRows ok nk).getD i []).getD j 0

/-- Edit operations of the backtracking phase (lines 37–41). -/
inductive Op where
  | equal (oldIndex newIndex : Nat)
  | remove (oldIndex : Nat)
  | add (newIndex : Nat)
  | modify (oldIndex newIndex : Nat)
deriving DecidableEq, Repr

/-- Backtracking walk of `computeLineDiff` (lines 43–74): from matrix
position `(i, j)` down to `(0, 0)`, producing ops in emission (push)
order; the caller reverses the list (line 76). The first branch pairs
equal keys, the second applies the diagonal tie-break producing a
`modify`, then removal wins ties against addition, and the two drain
loops cover the matrix borders. -/
def backtrack (ok nk : List String) : Nat → Nat → List Op
  | 0, 0 => []
  | i+1, 0 => Op.remove i :: backtrack ok nk i 0
  | 0, j+1 => Op.add j :: backtrack ok nk 0 j
  | i+1, j+1 =>
    if ok.getD i "" = nk.getD j "" then
      Op.equal i j :: backtrack ok nk i j
    else if dpCell ok nk i j ≥ dpCell ok nk i (j+1) ∧
        dpCell ok nk i j ≥ dpCell ok nk (i+1) j then
      Op.modify i j :: backtrack ok nk i j
    else if dpCell ok nk i (j+1) ≥ dpCell ok nk (i+1) j then
      Op.remove i :: backtrack ok nk i (j+1)
    else
      Op.add j :: backtrack ok nk (i+1) j
termination_by i j => (i, j)

/-- Status projection of a single edit op onto the pair of status lists
(lines 81–93 of `computeLineDiff`). -/
def applyOp (st : List LineStatus × List LineStatus) (op : Op) :
    List LineStatus × List LineStatus :=
  match op with
  | Op.equal oi ni => (st.1.set oi LineStatus.unchanged, st.2.set ni LineStatus.unchanged)
  | Op.remove oi => (st.1.set oi LineStatus.removed, st.2)
  | Op.add ni => (st.1, st.2.set ni LineStatus.added)
  | Op.modify oi ni => (st.1.set oi LineStatus.modified, st.2.set ni LineStatus.modified)

/-- Forward edit-op sequence of a diff invocation: the backtracking
output reversed into start-to-end order (the `ops` variable after
line 76). -/
def diffOps (oldText newText : String) : List Op :=
  (backtrack (lineKeys oldText) (lineKeys newText)
    (lineKeys oldText).length (lineKeys newText).length).reverse

/-- The diff engine `computeLineDiff` (lines 14–96 of `JsonDiff.tsx`):
split, normalize, build the matrix, backtrack, project statuses. -/
def computeLineDiff (oldText newText : String) : LineDiffResult :=
  let n := (lineKeys oldText).length
  let m := (lineKeys newText).length
  let final := (diffOps oldText newText).foldl applyOp
    (List.replicate n LineStatus.unchanged, List.replicate m LineStatus.unchanged)
  ⟨final.1, final.2⟩

/-- Mathematical LCS-length recurrence, proved below to coincide with
the iteratively built matrix `dpRows`. -/
def lcsCell (ok nk : List String) : Nat → Nat → Nat
  | 0, _ => 0
  | _+1, 0 => 0
  | i+1, j+1 =>
    if ok.getD i "" = nk.getD j "" then lcsCell ok nk i j + 1
    else max (lcsCell ok nk i (j+1)) (lcsCell ok nk (i+1) j)
termination_by i j => (i, j)

/-- Old-side index mentioned by an op, if any. -/
def opOldIndex : Op → Option Nat
  | Op.equal oi _ => some oi
  | Op.remove oi => some oi
  | Op.add _ => none
  | Op.modify oi _ => some oi

/-- New-side index mentioned by an op, if any. -/
def opNewIndex : Op → Option Nat
  | Op.equal _ ni => some ni
  | Op.remove _ => none
  | Op.add ni => some ni
  | Op.modify _ ni => some ni

/-- Status an op writes into the old-side array, if any. -/
def opOldStatus : Op → Option LineStatus
  | Op.equal _ _ => some LineStatus.unchanged
  | Op.remove _ => some LineStatus.removed
  | Op.add _ => none
  | Op.modify _ _ => some LineStatus.modified

/-- Status an op writes into the new-side array, if any. -/
def opNewStatus : Op → Option LineStatus
  | Op.equal _ _ => some LineStatus.unchanged
  | Op.remove _ => none
  | Op.add _ => some LineStatus.added
  | Op.modify _ _ => some LineStatus.modified

/-- Old-side half of `applyOp`. -/
def applyOldOp (st : List LineStatus) (op : Op) : List LineStatus :=
  match op with
  | Op.equal oi _ => st.set oi LineStatus.unchanged
  | Op.remove oi => st.set oi LineStatus.removed
  | Op.add _ => st
  | Op.modify oi _ => st.set oi LineStatus.modified

/-- New-side half of `applyOp`. -/
def applyNewOp (st : List LineStatus) (op : Op) : List LineStatus :=
  match op with
  | Op.equal _ ni => st.set ni LineStatus.unchanged
  | Op.remove _ => st
  | Op.add ni => st.set ni LineStatus.added
  | Op.modify _ ni => st.set ni LineStatus.modified

/-- Recognizer of `equal` ops. -/
def isEqualOp : Op → Bool
  | Op.equal _ _ => true
  | _ => false

/-- Bounds check of one op against the two line counts. -/
def opInBounds (n m : Nat) (op : Op) : Bool :=
  match op with
  | Op.equal oi ni => oi < n && ni < m
  | Op.remove oi => oi < n
  | Op.add ni => ni < m
  | Op.modify oi ni => oi < n && ni < m

/-- Fuel-indexed executable twin of `backtrack`; `backtrack` is defined by
well-founded recursion, so concrete runs are evaluated through this twin
via `backtrack_eq_btFuel`. -/
def btFuel (ok nk : List String) : Nat → Nat → Nat → List Op
  | 0, _, _ => []
  | _+1, 0, 0 => []
  | f+1, i+1, 0 => Op.remove i :: btFuel ok nk f i 0
  | f+1, 0, j+1 => Op.add j :: btFuel ok nk f 0 j
  | f+1, i+1, j+1 =>
    if ok.getD i "" = nk.getD j "" then
      Op.equal i j :: btFuel ok nk f i j
    else if dpCell ok nk i j ≥ dpCell ok nk i (j+1) ∧
        dpCell ok nk i j ≥ dpCell ok nk (i+1) j then
      Op.modify i j :: btFuel ok nk f i j
    else if dpCell ok nk i (j+1) ≥ dpCell ok nk (i+1) j then
      Op.remove i :: btFuel ok nk f i (j+1)
    else
      Op.add j :: btFuel ok nk f (i+1) j

theorem backtrack_nil (ok nk : List String) : backtrack ok nk 0 0 = [] := by
  rw [backtrack]

theorem backtrack_left (ok nk : List String) (i : Nat) :
    backtrack ok nk (i+1) 0 = Op.remove i :: backtrack ok nk i 0 := by
  rw [backtrack]

theorem backtrack_top (ok nk : List String) (j : Nat) :
    backtrack ok nk 0 (j+1) = Op.add j :: backtrack ok nk 0 j := by
  rw [backtrack]

theorem backtrack_equal (ok nk : List String) (i j : Nat)
    (h : ok.getD i "" = nk.getD j "") :
    backtrack ok nk (i+1) (j+1) = Op.equal i j :: backtrack ok nk i j := by
  rw [backtrack, if_pos h]

theorem backtrack_modify (ok nk : List String) (i j : Nat)
    (h : ¬ ok.getD i "" = nk.getD j "")
    (h2 : dpCell ok nk i j ≥ dpCell ok nk i (j+1) ∧
      dpCell ok nk i j ≥ dpCell ok nk (i+1) j) :
    backtrack ok nk (i+1) (j+1) = Op.modify i j :: backtrack ok nk i j := by
  rw [backtrack, if_neg h, if_pos h2]

theorem backtrack_remove (ok nk : List String) (i j : Nat)
    (h : ¬ ok.getD i "" = nk.getD j "")
    (h2 : ¬ (dpCell ok nk i j ≥ dpCell ok nk i (j+1) ∧
      dpCell ok nk i j ≥ dpCell ok nk (i+1) j))
    (h3 : dpCell ok nk i (j+1) ≥ dpCell ok nk (i+1) j) :
    backtrack ok nk (i+1) (j+1) = Op.remove i :: backtrack ok nk i (j+1) := by
  rw [backtrack, if_neg h, if_neg h2, if_pos h3]

theorem backtrack_push_add (ok nk : List String) (i j : Nat)
    (h : ¬ ok.getD i "" = nk.getD j "")
    (h2 : ¬ (dpCell ok nk i j ≥ dpCell ok nk i (j+1) ∧
      dpCell ok nk i j ≥ dpCell ok nk (i+1) j))
    (h3 : ¬ dpCell ok nk i (j+1) ≥ dpCell ok nk (i+1) j) :
    backtrack ok nk (i+1) (j+1) = Op.add j :: backtrack ok nk (i+1) j := by
  rw [backtrack, if_neg h, if_neg h2, if_neg h3]

theorem backtrack_eq_btFuel (ok nk : List String) :
    ∀ f i j, i + j ≤ f → backtrack ok nk i j = btFuel ok nk f i j := by
  intro f
  induction f with
  | zero =>
    intro i j h
    have hi : i = 0 := by omega
    have hj : j = 0 := by omega
    subst hi; subst hj
    rw [backtrack_nil]; rfl
  | succ f ih =>
    intro i j h
    match i, j with
    | 0, 0 => rw [backtrack_nil]; rfl
    | i+1, 0 =>
      rw [backtrack_left, ih i 0 (by omega)]; rfl
    | 0, j+1 =>
      rw [backtrack_top, ih 0 j (by omega)]; rfl
    | i+1, j+1 =>
      by_cases h1 : ok.getD i "" = nk.getD j ""
      · rw [backtrack_equal ok nk i j h1, ih i j (by omega)]
        show _ = if ok.getD i "" = nk.getD j "" then _ else _
        rw [if_pos h1]
      · by_cases h2 : dpCell ok nk i j ≥ dpCell ok nk i (j+1) ∧
            dpCell ok nk i j ≥ dpCell ok nk (i+1) j
        · rw [backtrack_modify ok nk i j h1 h2, ih i j (by omega)]
          show _ = if ok.getD i "" = nk.getD j "" then _ else _
          rw [if_neg h1, if_pos h2]
        · by_cases h3 : dpCell ok nk i (j+1) ≥ dpCell ok nk (i+1) j
          · rw [backtrack_remove ok nk i j h1 h2 h3, ih i (j+1) (by omega)]
            show _ = if ok.getD i "" = nk.getD j "" then _ else _
            rw [if_neg h1, if_neg h2, if_pos h3]
          · rw [backtrack_push_add ok nk i j h1 h2 h3, ih (i+1) j (by omega)]
            show _ = if ok.getD i "" = nk.getD j "" then _ else _
            rw [if_neg h1, if_neg h2, if_neg h3]

/-- Evaluation form of `computeLineDiff` through the fuel twin. -/
theorem computeLineDiff_eval (a b : String) :
    computeLineDiff a b =
      (fun final => LineDiffResult.mk final.1 final.2)
        ((btFuel (lineKeys a) (lineKeys b)
            ((lineKeys a).length + (lineKeys b).length)
            (lineKeys a).length (lineKeys b).length).reverse.foldl applyOp
          (List.replicate (lineKeys a).length LineStatus.unchanged,
           List.replicate (lineKeys b).length LineStatus.unchanged)) := by
  unfold computeLineDiff diffOps
  rw [backtrack_eq_btFuel (lineKeys a) (lineKeys b)
    ((lineKeys a).length + (lineKeys b).length)
    (lineKeys a).length (lineKeys b).length le_rfl]

theorem backtrack_oldIndices_aux (ok nk : List String) :
    ∀ f i j, i + j ≤ f →
      (backtrack ok nk i j).filterMap opOldIndex = (List.range i).reverse := by
  intro f
  induction f with
  | zero =>
    intro i j h
    have hi : i = 0 := by omega
    have hj : j = 0 := by omega
    subst hi; subst hj
    rw [backtrack_nil]; rfl
  | succ f ih =>
    intro i j h
    match i, j with
    | 0, 0 => rw [backtrack_nil]; rfl
    | i+1, 0 =>
      rw [backtrack_left]
      simp [List.filterMap_cons, opOldIndex, ih i 0 (by omega), List.range_succ]
    | 0, j+1 =>
      rw [backtrack_top]
      simp [List.filterMap_cons, opOldIndex, ih 0 j (by omega)]
    | i+1, j+1 =>
      by_cases h1 : ok.getD i "" = nk.getD j ""
      · rw [backtrack_equal ok nk i j h1]
        simp [List.filterMap_cons, opOldIndex, ih i j (by omega), List.range_succ]
      · by_cases h2 : dpCell ok nk i j ≥ dpCell ok nk i (j+1) ∧
            dpCell ok nk i j ≥ dpCell ok nk (i+1) j
        · rw [backtrack_modify ok nk i j h1 h2]
          simp [List.filterMap_cons, opOldIndex, ih i j (by omega), List.range_succ]
        · by_cases h3 : dpCell ok nk i (j+1) ≥ dpCell ok nk (i+1) j
          · rw [backtrack_remove ok nk i j h1 h2 h3]
            simp [List.filterMap_cons, opOldIndex, ih i (j+1) (by omega), List.range_succ]
          · rw [backtrack_push_add ok nk i j h1 h2 h3]
            simp [List.filterMap_cons, opOldIndex, ih (i+1) j (by omega)]

theorem backtrack_newIndices_aux (ok nk : List String) :
    ∀ f i j, i + j ≤ f →
      (backtrack ok nk i j).filterMap opNewIndex = (List.range j).reverse := by
  intro f
  induction f with
  | zero =>
    intro i j h
    have hi : i = 0 := by omega
    have hj : j = 0 := by omega
    subst hi; subst hj
    rw [backtrack_nil]; rfl
  | succ f ih =>
    intro i j h
    match i, j with
    | 0, 0 => rw [backtrack_nil]; rfl
    | i+1, 0 =>
      rw [backtrack_left]
      simp [List.filterMap_cons, opNewIndex, ih i 0 (by omega)]
    | 0, j+1 =>
      rw [backtrack_top]
      simp [List.filterMap_cons, opNewIndex, ih 0 j (by omega), List.range_succ]
    | i+1, j+1 =>
      by_cases h1 : ok.getD i "" = nk.getD j ""
      · rw [backtrack_equal ok nk i j h1]
        simp [List.filterMap_cons, opNewIndex, ih i j (by omega), List.range_succ]
      · by_cases h2 : dpCell ok nk i j ≥ dpCell ok nk i (j+1) ∧
            dpCell ok nk i j ≥ dpCell ok nk (i+1) j
        · rw [backtrack_modify ok nk i j h1 h2]
          simp [List.filterMap_cons, opNewIndex, ih i j (by omega), List.range_succ]
        · by_cases h3 : dpCell ok nk i (j+1) ≥ dpCell ok nk (i+1) j
          · rw [backtrack_remove ok nk i j h1 h2 h3]
            simp [List.filterMap_cons, opNewIndex, ih i (j+1) (by omega), List.range_succ]
          · rw [backtrack_push_add ok nk i j h1 h2 h3]
            simp [List.filterMap_cons, opNewIndex, ih (i+1) j (by omega), List.range_succ]

theorem diffOps_oldIndices (a b : String) :
    (diffOps a b).filterMap opOldIndex = List.range (lineKeys a).length := by
  unfold diffOps
  rw [List.filterMap_reverse,
    backtrack_oldIndices_aux _ _ ((lineKeys a).length + (lineKeys b).length) _ _ le_rfl,
    List.reverse_reverse]

theorem diffOps_newIndices (a b : String) :
    (diffOps a b).filterMap opNewIndex = List.range (lineKeys b).length := by
  unfold diffOps
  rw [List.filterMap_reverse,
    backtrack_newIndices_aux _ _ ((lineKeys a).length + (lineKeys b).length) _ _ le_rfl,
    List.reverse_reverse]

theorem applyOp_pair (s1 s2 : List LineStatus) (op : Op) :
    applyOp (s1, s2) op = (applyOldOp s1 op, applyNewOp s2 op) := by
  cases op <;> rfl

theorem foldl_applyOp_split (ops : List Op) :
    ∀ s1 s2 : List LineStatus,
      ops.foldl applyOp (s1, s2) = (ops.foldl applyOldOp s1, ops.foldl applyNewOp s2) := by
  induction ops with
  | nil => intro s1 s2; rfl
  | cons op rest ih =>
    intro s1 s2
    rw [List.foldl_cons, List.foldl_cons, List.foldl_cons, applyOp_pair]
    exact ih _ _

theorem take_set_succ (st : List LineStatus) (i : Nat) (v : LineStatus)
    (h : i < st.length) :
    (st.set i v).take (i+1) = st.take i ++ [v] := by
  rw [List.set_eq_take_cons_drop v h]
  have hlen : (st.take i).length = i := by
    rw [List.length_take]; omega
  calc (st.take i ++ v :: st.drop (i+1)).take (i+1)
      = (st.take i ++ v :: st.drop (i+1)).take ((st.take i).length + 1) := by rw [hlen]
    _ = st.take i ++ (v :: st.drop (i+1)).take 1 := List.take_append 1
    _ = st.take i ++ [v] := by simp

theorem foldl_applyOldOp_spec (ops : List Op) :
    ∀ (st : List LineStatus) (i k : Nat),
      ops.filterMap opOldIndex = List.range' i k →
      st.length = i + k →
      ops.foldl applyOldOp st = st.take i ++ ops.filterMap opOldStatus := by
  induction ops with
  | nil =>
    intro st i k h1 h2
    simp only [List.filterMap_nil] at h1 ⊢
    have hk : k = 0 := by
      by_contra hk
      obtain ⟨k', rfl⟩ := Nat.exists_eq_succ_of_ne_zero hk
      rw [List.range'_succ] at h1
      exact List.noConfusion h1
    subst hk
    rw [List.foldl_nil, List.append_nil, List.take_of_length_le (by omega)]
  | cons op rest ih =>
    intro st i k h1 h2
    cases op with
    | add ni =>
      simp only [List.filterMap_cons, opOldIndex] at h1
      rw [List.foldl_cons]
      show rest.foldl applyOldOp st = _
      rw [ih st i k h1 h2]
      simp [List.filterMap_cons, opOldStatus]
    | equal oi ni =>
      simp only [List.filterMap_cons, opOldIndex] at h1
      match k, h1 with
      | k'+1, h1 =>
        rw [List.range'_succ] at h1
        have hoi : oi = i := (List.cons_eq_cons.mp h1).1
        have h1' : rest.filterMap opOldIndex = List.range' (i+1) k' := (List.cons_eq_cons.mp h1).2
        have hlt : i < st.length := by omega
        rw [List.foldl_cons]
        show rest.foldl applyOldOp (st.set oi LineStatus.unchanged) = _
        rw [hoi]
        rw [ih (st.set i LineStatus.unchanged) (i+1) k' h1' (by rw [List.length_set]; omega)]
        rw [take_set_succ st i LineStatus.unchanged hlt]
        simp [List.filterMap_cons, opOldStatus]
    | remove oi =>
      simp only [List.filterMap_cons, opOldIndex] at h1
      match k, h1 with
      | k'+1, h1 =>
        rw [List.range'_succ] at h1
        have hoi : oi = i := (List.cons_eq_cons.mp h1).1
        have h1' : rest.filterMap opOldIndex = List.range' (i+1) k' := (List.cons_eq_cons.mp h1).2
        have hlt : i < st.length := by omega
        rw [List.foldl_cons]
        show rest.foldl applyOldOp (st.set oi LineStatus.removed) = _
        rw [hoi]
        rw [ih (st.set i LineStatus.removed) (i+1) k' h1' (by rw [List.length_set]; omega)]
        rw [take_set_succ st i LineStatus.removed hlt]
        simp [List.filterMap_cons, opOldStatus]
    | modify oi ni =>
      simp only [List.filterMap_cons, opOldIndex] at h1
      match k, h1 with
      | k'+1, h1 =>
        rw [List.range'_succ] at h1
        have hoi : oi = i := (List.cons_eq_cons.mp h1).1
        have h1' : rest.filterMap opOldIndex = List.range' (i+1) k' := (List.cons_eq_cons.mp h1).2
        have hlt : i < st.length := by omega
        rw [List.foldl_cons]
        show rest.foldl applyOldOp (st.set oi LineStatus.modified) = _
        rw [hoi]
        rw [ih (st.set i LineStatus.modified) (i+1) k' h1' (by rw [List.length_set]; omega)]
        rw [take_set_succ st i LineStatus.modified hlt]
        simp [List.filterMap_cons, opOldStatus]

theorem foldl_applyNewOp_spec (ops : List Op) :
    ∀ (st : List LineStatus) (i k : Nat),
      ops.filterMap opNewIndex = List.range' i k →
      st.length = i + k →
      ops.foldl applyNewOp st = st.take i ++ ops.filterMap opNewStatus := by
  induction ops with
  | nil =>
    intro st i k h1 h2
    simp only [List.filterMap_nil] at h1 ⊢
    have hk : k = 0 := by
      by_contra hk
      obtain ⟨k', rfl⟩ := Nat.exists_eq_succ_of_ne_zero hk
      rw [List.range'_succ] at h1
      exact List.noConfusion h1
    subst hk
    rw [List.foldl_nil, List.append_nil, List.take_of_length_le (by omega)]
  | cons op rest ih =>
    intro st i k h1 h2
    cases op with
    | remove oi =>
      simp only [List.filterMap_cons, opNewIndex] at h1
      rw [List.foldl_cons]
      show rest.foldl applyNewOp st = _
      rw [ih st i k h1 h2]
      simp [List.filterMap_cons, opNewStatus]
    | equal oi ni =>
      simp only [List.filterMap_cons, opNewIndex] at h1
      match k, h1 with
      | k'+1, h1 =>
        rw [List.range'_succ] at h1
        have hni : ni = i := (List.cons_eq_cons.mp h1).1
        have h1' : rest.filterMap opNewIndex = List.range' (i+1) k' := (List.cons_eq_cons.mp h1).2
        have hlt : i < st.length := by omega
        rw [List.foldl_cons]
        show rest.foldl applyNewOp (st.set ni LineStatus.unchanged) = _
        rw [hni]
        rw [ih (st.set i LineStatus.unchanged) (i+1) k' h1' (by rw [List.length_set]; omega)]
        rw [take_set_succ st i LineStatus.unchanged hlt]
        simp [List.filterMap_cons, opNewStatus]
    | add ni =>
      simp only [List.filterMap_cons, opNewIndex] at h1
      match k, h1 with
      | k'+1, h1 =>
        rw [List.range'_succ] at h1
        have hni : ni = i := (List.cons_eq_cons.mp h1).1
        have h1' : rest.filterMap opNewIndex = List.range' (i+1) k' := (List.cons_eq_cons.mp h1).2
        have hlt : i < st.length := by omega
        rw [List.foldl_cons]
        show rest.foldl applyNewOp (st.set ni LineStatus.added) = _
        rw [hni]
        rw [ih (st.set i LineStatus.added) (i+1) k' h1' (by rw [List.length_set]; omega)]
        rw [take_set_succ st i LineStatus.added hlt]
        simp [List.filterMap_cons, opNewStatus]
    | modify oi ni =>
      simp only [List.filterMap_cons, opNewIndex] at h1
      match k, h1 with
      | k'+1, h1 =>
        rw [List.range'_succ] at h1
        have hni : ni = i := (List.cons_eq_cons.mp h1).1
        have h1' : rest.filterMap opNewIndex = List.range' (i+1) k' := (List.cons_eq_cons.mp h1).2
        have hlt : i < st.length := by omega
        rw [List.foldl_cons]
        show rest.foldl applyNewOp (st.set ni LineStatus.modified) = _
        rw [hni]
        rw [ih (st.set i LineStatus.modified) (i+1) k' h1' (by rw [List.length_set]; omega)]
        rw [take_set_succ st i LineStatus.modified hlt]
        simp [List.filterMap_cons, opNewStatus]

/-- Closed form of the old-side output: the statuses the forward op
sequence writes, in op order. -/
theorem computeLineDiff_old_eq (a b : String) :
    (computeLineDiff a b).oldStatuses = (diffOps a b).filterMap opOldStatus := by
  show ((diffOps a b).foldl applyOp
      (List.replicate (lineKeys a).length LineStatus.unchanged,
       List.replicate (lineKeys b).length LineStatus.unchanged)).1 = _
  rw [foldl_applyOp_split]
  show (diffOps a b).foldl applyOldOp _ = _
  rw [foldl_applyOldOp_spec (diffOps a b) _ 0 (lineKeys a).length
    (by rw [diffOps_oldIndices, List.range_eq_range'])
    (by rw [List.length_replicate]; omega)]
  simp

/-- Closed form of the new-side output. -/
theorem computeLineDiff_new_eq (a b : String) :
    (computeLineDiff a b).newStatuses = (diffOps a b).filterMap opNewStatus := by
  show ((diffOps a b).foldl applyOp
      (List.replicate (lineKeys a).length LineStatus.unchanged,
       List.replicate (lineKeys b).length LineStatus.unchanged)).2 = _
  rw [foldl_applyOp_split]
  show (diffOps a b).foldl applyNewOp _ = _
  rw [foldl_applyNewOp_spec (diffOps a b) _ 0 (lineKeys b).length
    (by rw [diffOps_newIndices, List.range_eq_range'])
    (by rw [List.length_replicate]; omega)]
  simp

theorem lcsCell_zero_left (ok nk : List String) (j : Nat) : lcsCell ok nk 0 j = 0 := by
  rw [lcsCell]

theorem lcsCell_zero_right (ok nk : List String) (i : Nat) : lcsCell ok nk i 0 = 0 := by
  cases i with
  | zero => rw [lcsCell]
  | succ i => rw [lcsCell]

theorem lcsCell_succ (ok nk : List String) (i j : Nat) :
    lcsCell ok nk (i+1) (j+1) =
      if ok.getD i "" = nk.getD j "" then lcsCell ok nk i j + 1
      else max (lcsCell ok nk i (j+1)) (lcsCell ok nk (i+1) j) := by
  rw [lcsCell]

theorem rowAux_eq (ok nk : List String) (i : Nat) :
    ∀ d j rem dv lv, rem = nk.drop j → j + d = nk.length →
      dv = lcsCell ok nk i j → lv = lcsCell ok nk (i+1) j →
      rowAux (ok.getD i "") rem
        ((List.range' (j+1) d).map (lcsCell ok nk i)) dv lv
      = (List.range' (j+1) d).map (lcsCell ok nk (i+1)) := by
  intro d
  induction d with
  | zero =>
    intro j rem dv lv hrem hj hdv hlv
    have hjm : j = nk.length := by omega
    subst hjm
    rw [List.drop_length] at hrem
    subst hrem
    rfl
  | succ d ihd =>
    intro j rem dv lv hrem hj hdv hlv
    have hjlt : j < nk.length := by omega
    rw [List.drop_eq_getElem_cons hjlt] at hrem
    subst hrem; subst hdv; subst hlv
    rw [List.range'_succ, List.map_cons]
    simp only [rowAux, List.headD_cons, List.tail_cons]
    have hgetD : nk.getD j "" = nk[j] := List.getD_eq_getElem nk "" hjlt
    rw [← hgetD, ← lcsCell_succ]
    rw [ihd (j+1) (nk.drop (j+1)) (lcsCell ok nk i (j+1)) (lcsCell ok nk (i+1) (j+1))
      rfl (by omega) rfl rfl]
    rw [List.map_cons]

theorem buildRow_eq (ok nk : List String) (i : Nat) :
    buildRow (ok.getD i "") ((List.range (nk.length + 1)).map (lcsCell ok nk i)) nk
      = (List.range (nk.length + 1)).map (lcsCell ok nk (i+1)) := by
  have hr : List.range (nk.length + 1) = 0 :: List.range' 1 nk.length := by
    rw [List.range_eq_range', List.range'_succ]
  rw [hr, List.map_cons, List.map_cons]
  unfold buildRow
  simp only [List.tail_cons, List.headD_cons]
  refine List.cons_eq_cons.mpr ⟨(lcsCell_zero_right ok nk (i+1)).symm, ?_⟩
  exact rowAux_eq ok nk i nk.length 0 nk (lcsCell ok nk i 0) 0
    (List.drop_zero nk).symm (by omega) rfl (lcsCell_zero_right ok nk (i+1)).symm

theorem dpRowsFrom_eq (ok nk : List String) :
    ∀ d i rem prev, rem = ok.drop i → i + d = ok.length →
      prev = (List.range (nk.length + 1)).map (lcsCell ok nk i) →
      dpRowsFrom prev nk rem
        = (List.range' (i+1) d).map
            (fun t => (List.range (nk.length + 1)).map (lcsCell ok nk t)) := by
  intro d
  induction d with
  | zero =>
    intro i rem prev hrem hi hprev
    have him : i = ok.length := by omega
    subst him
    rw [List.drop_length] at hrem
    subst hrem
    rfl
  | succ d ihd =>
    intro i rem prev hrem hi hprev
    have hilt : i < ok.length := by omega
    rw [List.drop_eq_getElem_cons hilt] at hrem
    subst hrem; subst hprev
    simp only [dpRowsFrom]
    have hok : ok[i] = ok.getD i "" := (List.getD_eq_getElem ok "" hilt).symm
    rw [hok, buildRow_eq]
    rw [ihd (i+1) (ok.drop (i+1)) _ rfl (by omega) rfl]
    rw [List.range'_succ, List.map_cons]

theorem dpRows_eq (ok nk : List String) :
    dpRows ok nk
      = (List.range (ok.length + 1)).map
          (fun t => (List.range (nk.length + 1)).map (lcsCell ok nk t)) := by
  have hrow0 : List.replicate (nk.length + 1) (0:Nat)
      = (List.range (nk.length + 1)).map (lcsCell ok nk 0) := by
    have h1 : (List.range (nk.length + 1)).map (lcsCell ok nk 0)
        = (List.range (nk.length + 1)).map (Function.const Nat 0) := by
      apply List.map_congr_left
      intro x hx
      exact lcsCell_zero_left ok nk x
    rw [h1, List.map_const, List.length_range]
  show List.replicate (nk.length + 1) 0
      :: dpRowsFrom (List.replicate (nk.length + 1) 0) nk ok = _
  rw [hrow0]
  rw [dpRowsFrom_eq ok nk ok.length 0 ok _ (List.drop_zero ok).symm (by omega) rfl]
  have hr : List.range (ok.length + 1) = 0 :: List.range' 1 ok.length := by
    rw [List.range_eq_range', List.range'_succ]
  rw [hr, List.map_cons]

theorem getD_map_range {α : Type} (f : Nat → α) (k i : Nat) (d : α) (h : i < k) :
    ((List.range k).map f).getD i d = f i := by
  rw [List.getD_eq_getElem _ _ (by rw [List.length_map, List.length_range]; omega)]
  rw [List.getElem_map, List.getElem_range]

/-- Agreement of the iteratively built matrix with the LCS recurrence on
all in-range cells. -/
theorem dpCell_eq (ok nk : List String) (i j : Nat)
    (hi : i ≤ ok.length) (hj : j ≤ nk.length) :
    dpCell ok nk i j = lcsCell ok nk i j := by
  unfold dpCell
  rw [dpRows_eq]
  rw [getD_map_range _ (ok.length + 1) i [] (by omega)]
  rw [getD_map_range _ (nk.length + 1) j 0 (by omega)]

theorem dpCell_zero_left (ok nk : List String) (j : Nat) : dpCell ok nk 0 j = 0 := by
  unfold dpCell
  rw [dpRows_eq]
  rw [getD_map_range _ (ok.length + 1) 0 [] (by omega)]
  by_cases hj : j < nk.length + 1
  · rw [getD_map_range _ (nk.length + 1) j 0 hj, lcsCell_zero_left]
  · rw [List.getD_eq_default _ _ (by rw [List.length_map, List.length_range]; omega)]

theorem dpCell_zero_right (ok nk : List String) (i : Nat) : dpCell ok nk i 0 = 0 := by
  unfold dpCell
  rw [dpRows_eq]
  by_cases hi : i < ok.length + 1
  · rw [getD_map_range _ (ok.length + 1) i [] hi]
    rw [getD_map_range _ (nk.length + 1) 0 0 (by omega), lcsCell_zero_right]
  · rw [List.getD_eq_default
      ((List.range (ok.length + 1)).map
        (fun t => (List.range (nk.length + 1)).map (lcsCell ok nk t))) []
      (by rw [List.length_map, List.length_range]; omega)]
    rfl

theorem lcsCell_steps (ok nk : List String) :
    ∀ s i j, i + j ≤ s →
      (lcsCell ok nk i j ≤ lcsCell ok nk (i+1) j ∧
       lcsCell ok nk (i+1) j ≤ lcsCell ok nk i j + 1) ∧
      (lcsCell ok nk i j ≤ lcsCell ok nk i (j+1) ∧
       lcsCell ok nk i (j+1) ≤ lcsCell ok nk i j + 1) := by
  intro s
  induction s with
  | zero =>
    intro i j h
    have hi : i = 0 := by omega
    have hj : j = 0 := by omega
    subst hi; subst hj
    simp [lcsCell_zero_left, lcsCell_zero_right]
  | succ s ih =>
    intro i j h
    match i, j with
    | 0, 0 =>
      simp [lcsCell_zero_left, lcsCell_zero_right]
    | i+1, 0 =>
      have ihD : lcsCell ok nk i (0+1) ≤ lcsCell ok nk i 0 + 1 :=
        ((ih i 0 (by omega)).2).2
      rw [lcsCell_zero_right ok nk i] at ihD
      refine ⟨⟨?_, ?_⟩, ⟨?_, ?_⟩⟩
      · rw [lcsCell_zero_right]; exact Nat.zero_le _
      · rw [lcsCell_zero_right ok nk (i+1+1)]; exact Nat.zero_le _
      · rw [lcsCell_zero_right]; exact Nat.zero_le _
      · rw [lcsCell_succ, lcsCell_zero_right ok nk (i+1)]
        split_ifs with hkey
        · rw [lcsCell_zero_right ok nk i]
        · have hz : lcsCell ok nk (i+1) 0 = 0 := lcsCell_zero_right ok nk (i+1)
          exact Nat.max_le.mpr ⟨by omega, by omega⟩
    | 0, j+1 =>
      have ihB : lcsCell ok nk (0+1) j ≤ lcsCell ok nk 0 j + 1 :=
        ((ih 0 j (by omega)).1).2
      rw [lcsCell_zero_left ok nk j] at ihB
      refine ⟨⟨?_, ?_⟩, ⟨?_, ?_⟩⟩
      · rw [lcsCell_zero_left]; exact Nat.zero_le _
      · rw [lcsCell_succ, lcsCell_zero_left ok nk (j+1)]
        split_ifs with hkey
        · rw [lcsCell_zero_left ok nk j]
        · have hz : lcsCell ok nk 0 (j+1) = 0 := lcsCell_zero_left ok nk (j+1)
          exact Nat.max_le.mpr ⟨by omega, by omega⟩
      · rw [lcsCell_zero_left, lcsCell_zero_left]
      · rw [lcsCell_zero_left, lcsCell_zero_left]
        exact Nat.zero_le _
    | i+1, j+1 =>
      have ihA : lcsCell ok nk i (j+1) ≤ lcsCell ok nk (i+1) (j+1) :=
        ((ih i (j+1) (by omega)).1).1
      have ihB : lcsCell ok nk (i+1) (j+1) ≤ lcsCell ok nk i (j+1) + 1 :=
        ((ih i (j+1) (by omega)).1).2
      have ihD' : lcsCell ok nk i (j+1+1) ≤ lcsCell ok nk i (j+1) + 1 :=
        ((ih i (j+1) (by omega)).2).2
      have ihBr : lcsCell ok nk (i+1+1) j ≤ lcsCell ok nk (i+1) j + 1 :=
        ((ih (i+1) j (by omega)).1).2
      have ihCr : lcsCell ok nk (i+1) j ≤ lcsCell ok nk (i+1) (j+1) :=
        ((ih (i+1) j (by omega)).2).1
      have ihDr : lcsCell ok nk (i+1) (j+1) ≤ lcsCell ok nk (i+1) j + 1 :=
        ((ih (i+1) j (by omega)).2).2
      refine ⟨⟨?_, ?_⟩, ⟨?_, ?_⟩⟩
      · rw [lcsCell_succ ok nk (i+1) j]
        split_ifs with hkey
        · exact ihDr
        · exact Nat.le_max_left _ _
      · rw [lcsCell_succ ok nk (i+1) j]
        split_ifs with hkey
        · omega
        · exact Nat.max_le.mpr ⟨by omega, by omega⟩
      · rw [lcsCell_succ ok nk i (j+1)]
        split_ifs with hkey
        · exact ihB
        · exact Nat.le_max_right _ _
      · rw [lcsCell_succ ok nk i (j+1)]
        split_ifs with hkey
        · omega
        · exact Nat.max_le.mpr ⟨by omega, by omega⟩

theorem lcsCell_mono_right (ok nk : List String) (i j : Nat) :
    lcsCell ok nk i j ≤ lcsCell ok nk i (j+1) :=
  ((lcsCell_steps ok nk (i+j) i j le_rfl).2).1

/-- Number of `equal` ops emitted by the walk from `(i, j)` equals the
LCS length of the corresponding prefixes. -/
theorem countEqual_backtrack (ok nk : List String) :
    ∀ s i j, i + j ≤ s → i ≤ ok.length → j ≤ nk.length →
      (backtrack ok nk i j).countP isEqualOp = lcsCell ok nk i j := by
  intro s
  induction s with
  | zero =>
    intro i j h hi hj
    have hi0 : i = 0 := by omega
    have hj0 : j = 0 := by omega
    subst hi0; subst hj0
    rw [backtrack_nil, lcsCell_zero_left]
    rfl
  | succ s ih =>
    intro i j h hi hj
    match i, j with
    | 0, 0 =>
      rw [backtrack_nil, lcsCell_zero_left]
      rfl
    | i+1, 0 =>
      rw [backtrack_left, List.countP_cons]
      rw [ih i 0 (by omega) (by omega) hj]
      rw [lcsCell_zero_right, lcsCell_zero_right]
      rfl
    | 0, j+1 =>
      rw [backtrack_top, List.countP_cons]
      rw [ih 0 j (by omega) hi (by omega)]
      rw [lcsCell_zero_left, lcsCell_zero_left]
      rfl
    | i+1, j+1 =>
      have e1 : dpCell ok nk i j = lcsCell ok nk i j :=
        dpCell_eq ok nk i j (by omega) (by omega)
      have e2 : dpCell ok nk i (j+1) = lcsCell ok nk i (j+1) :=
        dpCell_eq ok nk i (j+1) (by omega) (by omega)
      have e3 : dpCell ok nk (i+1) j = lcsCell ok nk (i+1) j :=
        dpCell_eq ok nk (i+1) j (by omega) (by omega)
      by_cases h1 : ok.getD i "" = nk.getD j ""
      · rw [backtrack_equal ok nk i j h1, List.countP_cons]
        rw [ih i j (by omega) (by omega) (by omega)]
        rw [lcsCell_succ, if_pos h1]
        simp [isEqualOp]
      · by_cases h2 : dpCell ok nk i j ≥ dpCell ok nk i (j+1) ∧
            dpCell ok nk i j ≥ dpCell ok nk (i+1) j
        · rw [backtrack_modify ok nk i j h1 h2, List.countP_cons]
          rw [ih i j (by omega) (by omega) (by omega)]
          rw [lcsCell_succ, if_neg h1]
          obtain ⟨h2a, h2b⟩ := h2
          rw [e1, e2] at h2a
          rw [e1, e3] at h2b
          have hmono := lcsCell_mono_right ok nk i j
          have hmax : max (lcsCell ok nk i (j+1)) (lcsCell ok nk (i+1) j)
              = lcsCell ok nk i j :=
            le_antisymm (Nat.max_le.mpr ⟨h2a, h2b⟩)
              (le_trans hmono (Nat.le_max_left _ _))
          rw [hmax]
          simp [isEqualOp]
        · by_cases h3 : dpCell ok nk i (j+1) ≥ dpCell ok nk (i+1) j
          · rw [backtrack_remove ok nk i j h1 h2 h3, List.countP_cons]
            rw [ih i (j+1) (by omega) (by omega) hj]
            rw [lcsCell_succ, if_neg h1]
            rw [e2, e3] at h3
            rw [Nat.max_eq_left h3]
            simp [isEqualOp]
          · rw [backtrack_push_add ok nk i j h1 h2 h3, List.countP_cons]
            rw [ih (i+1) j (by omega) hi (by omega)]
            rw [lcsCell_succ, if_neg h1]
            rw [e2, e3] at h3
            have hlt : lcsCell ok nk i (j+1) < lcsCell ok nk (i+1) j := by omega
            rw [Nat.max_eq_right (Nat.le_of_lt hlt)]
            simp [isEqualOp]

/-- Transposition symmetry of the LCS recurrence. -/
theorem lcsCell_comm_aux (ok nk : List String) :
    ∀ s i j, i + j ≤ s → lcsCell ok nk i j = lcsCell nk ok j i := by
  intro s
  induction s with
  | zero =>
    intro i j h
    have hi : i = 0 := by omega
    have hj : j = 0 := by omega
    subst hi; subst hj
    rw [lcsCell_zero_left, lcsCell_zero_left]
  | succ s ih =>
    intro i j h
    match i, j with
    | 0, 0 => rw [lcsCell_zero_left, lcsCell_zero_left]
    | i+1, 0 => rw [lcsCell_zero_right, lcsCell_zero_left]
    | 0, j+1 => rw [lcsCell_zero_left, lcsCell_zero_right]
    | i+1, j+1 =>
      rw [lcsCell_succ, lcsCell_succ]
      by_cases h1 : ok.getD i "" = nk.getD j ""
      · rw [if_pos h1, if_pos h1.symm, ih i j (by omega)]
      · rw [if_neg h1, if_neg (fun hc => h1 hc.symm)]
        rw [ih i (j+1) (by omega), ih (i+1) j (by omega), Nat.max_comm]

theorem lcsCell_comm (ok nk : List String) (i j : Nat) :
    lcsCell ok nk i j = lcsCell nk ok j i :=
  lcsCell_comm_aux ok nk (i+j) i j le_rfl

theorem countP_filterMap_oldStatus (ops : List Op) :
    (ops.filterMap opOldStatus).countP (fun s => s == LineStatus.unchanged)
      = ops.countP isEqualOp := by
  induction ops with
  | nil => rfl
  | cons op rest ih =>
    cases op <;>
      simp [List.filterMap_cons, opOldStatus, List.countP_cons, isEqualOp, ih] <;>
      decide

theorem countP_filterMap_newStatus (ops : List Op) :
    (ops.filterMap opNewStatus).countP (fun s => s == LineStatus.unchanged)
      = ops.countP isEqualOp := by
  induction ops with
  | nil => rfl
  | cons op rest ih =>
    cases op <;>
      simp [List.filterMap_cons, opNewStatus, List.countP_cons, isEqualOp, ih] <;>
      decide

/-- Unchanged lines on the old side number exactly the LCS length. -/
theorem countUnchanged_old (a b : String) :
    (computeLineDiff a b).oldStatuses.countP (fun s => s == LineStatus.unchanged)
      = lcsCell (lineKeys a) (lineKeys b) (lineKeys a).length (lineKeys b).length := by
  rw [computeLineDiff_old_eq, countP_filterMap_oldStatus]
  unfold diffOps
  rw [List.countP_reverse]
  exact countEqual_backtrack _ _ ((lineKeys a).length + (lineKeys b).length)
    _ _ le_rfl le_rfl le_rfl

/-- Unchanged lines on the new side number exactly the LCS length. -/
theorem countUnchanged_new (a b : String) :
    (computeLineDiff a b).newStatuses.countP (fun s => s == LineStatus.unchanged)
      = lcsCell (lineKeys a) (lineKeys b) (lineKeys a).length (lineKeys b).length := by
  rw [computeLineDiff_new_eq, countP_filterMap_newStatus]
  unfold diffOps
  rw [List.countP_reverse]
  exact countEqual_backtrack _ _ ((lineKeys a).length + (lineKeys b).length)
    _ _ le_rfl le_rfl le_rfl

theorem backtrack_self_keys (ks : List String) :
    ∀ i, backtrack ks ks i i = (List.range i).reverse.map (fun t => Op.equal t t) := by
  intro i
  induction i with
  | zero => rw [backtrack_nil]; rfl
  | succ i ih =>
    rw [backtrack_equal ks ks i i rfl, ih, List.range_succ]
    simp

theorem filterMap_equal_old (l : List Nat) :
    (l.map (fun t => Op.equal t t)).filterMap opOldStatus
      = List.replicate l.length LineStatus.unchanged := by
  induction l with
  | nil => rfl
  | cons x xs ih =>
    simp [List.filterMap_cons, opOldStatus, ih, List.replicate_succ]

theorem filterMap_equal_new (l : List Nat) :
    (l.map (fun t => Op.equal t t)).filterMap opNewStatus
      = List.replicate l.length LineStatus.unchanged := by
  induction l with
  | nil => rfl
  | cons x xs ih =>
    simp [List.filterMap_cons, opNewStatus, ih, List.replicate_succ]

/-- Equal comparison-key sequences produce the all-Unchanged result. -/
theorem computeLineDiff_eq_keys (a b : String) (h : lineKeys a = lineKeys b) :
    computeLineDiff a b
      = ⟨List.replicate (lineKeys a).length LineStatus.unchanged,
         List.replicate (lineKeys a).length LineStatus.unchanged⟩ := by
  have hops : diffOps a b
      = (List.range (lineKeys a).length).map (fun t => Op.equal t t) := by
    unfold diffOps
    rw [← h, backtrack_self_keys]
    simp
  have hold : (computeLineDiff a b).oldStatuses
      = List.replicate (lineKeys a).length LineStatus.unchanged := by
    rw [computeLineDiff_old_eq, hops, filterMap_equal_old, List.length_range]
  have hnew : (computeLineDiff a b).newStatuses
      = List.replicate (lineKeys a).length LineStatus.unchanged := by
    rw [computeLineDiff_new_eq, hops, filterMap_equal_new, List.length_range]
  rw [show computeLineDiff a b
      = ⟨(computeLineDiff a b).oldStatuses, (computeLineDiff a b).newStatuses⟩ from rfl,
    hold, hnew]

theorem lineKeys_length (s : String) : (lineKeys s).length = (splitLines s).length := by
  unfold lineKeys
  exact List.length_map _ _

theorem splitCharList_ne_nil : ∀ cs : List Char, splitCharList cs ≠ [] := by
  intro cs
  induction cs with
  | nil => simp [splitCharList]
  | cons c cs ih =>
    simp only [splitCharList]
    cases hs : splitCharList cs with
    | nil => simp
    | cons l ls => split_ifs <;> simp

theorem splitCharList_cons (c : Char) (cs : List Char) :
    splitCharList (c :: cs)
      = if c = '\n' then [] :: splitCharList cs
        else (c :: (splitCharList cs).headD []) :: (splitCharList cs).tail := by
  cases hs : splitCharList cs with
  | nil => exact absurd hs (splitCharList_ne_nil cs)
  | cons l ls =>
    simp only [splitCharList, hs]
    split_ifs <;> simp

theorem splitCharList_newline (t : List Char) :
    splitCharList ('\n' :: t) = [] :: splitCharList t := by
  rw [splitCharList_cons, if_pos rfl]

theorem splitCharList_append (a : List Char) :
    ∀ t : List Char, '\n' ∉ a →
      splitCharList (a ++ t)
        = (a ++ (splitCharList t).headD []) :: (splitCharList t).tail := by
  induction a with
  | nil =>
    intro t _
    simp only [List.nil_append]
    cases hs : splitCharList t with
    | nil => exact absurd hs (splitCharList_ne_nil t)
    | cons l ls => simp
  | cons c a ih =>
    intro t ha
    have hc : ¬ c = '\n' := by
      intro hc
      exact ha (by rw [hc]; exact List.mem_cons_self _ _)
    have ha' : '\n' ∉ a := fun hm => ha (List.mem_cons_of_mem c hm)
    rw [List.cons_append, splitCharList_cons, if_neg hc, ih t ha']
    simp

theorem splitCharList_no_newline (a : List Char) (ha : '\n' ∉ a) :
    splitCharList a = [a] := by
  have h := splitCharList_append a [] ha
  rw [List.append_nil] at h
  rw [show splitCharList ([] : List Char) = [[]] from rfl] at h
  simpa using h

/-- A text assembled from the given lines with a fixed separator between
consecutive lines. -/
def joinWith (sep : List Char) : List (List Char) → List Char
  | [] => []
  | [l] => l
  | l :: l' :: ls => l ++ sep ++ joinWith sep (l' :: ls)

theorem splitCharList_joinWith_lf :
    ∀ ls : List (List Char), ls ≠ [] → (∀ l ∈ ls, '\n' ∉ l) →
      splitCharList (joinWith ['\n'] ls) = ls := by
  intro ls
  induction ls with
  | nil => intro h _; exact absurd rfl h
  | cons l rest ih =>
    intro _ hmem
    cases rest with
    | nil =>
      show splitCharList l = [l]
      exact splitCharList_no_newline l (hmem l (by simp))
    | cons l' rest' =>
      show splitCharList (l ++ ['\n'] ++ joinWith ['\n'] (l' :: rest')) = _
      rw [List.append_assoc]
      rw [splitCharList_append l _ (hmem l (by simp))]
      rw [show (['\n'] ++ joinWith ['\n'] (l' :: rest') : List Char)
          = '\n' :: joinWith ['\n'] (l' :: rest') from rfl]
      rw [splitCharList_newline]
      rw [ih (by simp) (fun x hx => hmem x (by simp [hx]))]
      simp

theorem rstripChars_append_cr (l : List Char) :
    rstripChars (l ++ ['\r']) = rstripChars l := by
  unfold rstripChars
  rw [List.reverse_append]
  have : (['\r'] : List Char).reverse ++ l.reverse = '\r' :: l.reverse := rfl
  rw [this, List.dropWhile_cons_of_pos (by decide)]

theorem map_rstrip_joinWith_crlf :
    ∀ ls : List (List Char), ls ≠ [] → (∀ l ∈ ls, '\n' ∉ l) →
      (splitCharList (joinWith ['\r', '\n'] ls)).map rstripChars
        = ls.map rstripChars := by
  intro ls
  induction ls with
  | nil => intro h _; exact absurd rfl h
  | cons l rest ih =>
    intro _ hmem
    cases rest with
    | nil =>
      show (splitCharList l).map rstripChars = _
      rw [splitCharList_no_newline l (hmem l (by simp))]
    | cons l' rest' =>
      show (splitCharList
          (l ++ ['\r', '\n'] ++ joinWith ['\r', '\n'] (l' :: rest'))).map rstripChars = _
      have hassoc : l ++ ['\r', '\n'] ++ joinWith ['\r', '\n'] (l' :: rest')
          = (l ++ ['\r']) ++ ('\n' :: joinWith ['\r', '\n'] (l' :: rest')) := by
        simp
      rw [hassoc]
      rw [splitCharList_append (l ++ ['\r']) _ (by
        intro hmm
        rcases List.mem_append.mp hmm with hx | hx
        · exact hmem l (by simp) hx
        · simp at hx)]
      rw [splitCharList_newline]
      simp only [List.headD_cons, List.tail_cons]
      rw [List.map_cons]
      rw [ih (by simp) (fun x hx => hmem x (by simp [hx]))]
      rw [List.map_cons]
      congr 1
      rw [List.append_nil]
      exact rstripChars_append_cr l

theorem lineKeys_mk (cs : List Char) :
    lineKeys (String.mk cs)
      = (splitCharList cs).map (fun l => String.mk (rstripChars l)) := by
  unfold lineKeys splitLines rstrip
  rw [List.map_map]
  rfl

theorem lineKeys_crlf_lf (ls : List (List Char)) (hne : ls ≠ [])
    (h : ∀ l ∈ ls, '\n' ∉ l) :
    lineKeys (String.mk (joinWith ['\r', '\n'] ls))
      = lineKeys (String.mk (joinWith ['\n'] ls)) := by
  rw [lineKeys_mk, lineKeys_mk]
  rw [splitCharList_joinWith_lf ls hne h]
  have hm : ∀ lst : List (List Char),
      lst.map (fun l => String.mk (rstripChars l))
        = (lst.map rstripChars).map String.mk := by
    intro lst
    rw [List.map_map]
    rfl
  rw [hm, hm, map_rstrip_joinWith_crlf ls hne h]

theorem length_filterMap_oldStatus (ops : List Op) :
    (ops.filterMap opOldStatus).length = (ops.filterMap opOldIndex).length := by
  induction ops with
  | nil => rfl
  | cons op rest ih =>
    cases op <;> simp [List.filterMap_cons, opOldStatus, opOldIndex, ih]

theorem length_filterMap_newStatus (ops : List Op) :
    (ops.filterMap opNewStatus).length = (ops.filterMap opNewIndex).length := by
  induction ops with
  | nil => rfl
  | cons op rest ih =>
    cases op <;> simp [List.filterMap_cons, opNewStatus, opNewIndex, ih]

theorem diff_old_length (a b : String) :
    (computeLineDiff a b).oldStatuses.length = (splitLines a).length := by
  rw [computeLineDiff_old_eq, length_filterMap_oldStatus, diffOps_oldIndices,
    List.length_range, lineKeys_length]

theorem diff_new_length (a b : String) :
    (computeLineDiff a b).newStatuses.length = (splitLines b).length := by
  rw [computeLineDiff_new_eq, length_filterMap_newStatus, diffOps_newIndices,
    List.length_range, lineKeys_length]

theorem splitLines_ne_nil (s : String) : 0 < (splitLines s).length := by
  unfold splitLines
  rw [List.length_map]
  exact List.length_pos.mpr (splitCharList_ne_nil s.data)

/-- C1: `computeLineDiff "a\nb" "a\nc"` returns old = [Unchanged, Modified]
and new = [Unchanged, Modified]; the differing second lines are paired as
one modification by the tie-break rule, not as Removed plus Added. -/
theorem c1_substitution_pairing :
    computeLineDiff "a\nb" "a\nc"
      = ⟨[LineStatus.unchanged, LineStatus.modified],
         [LineStatus.unchanged, LineStatus.modified]⟩ := by
  rw [computeLineDiff_eval]
  decide

/-- C2: for every string T, `computeLineDiff T T` marks every line of both
sides Unchanged (each status list is Unchanged at every index). -/
theorem c2_identity (T : String) :
    computeLineDiff T T
      = ⟨List.replicate (splitLines T).length LineStatus.unchanged,
         List.replicate (splitLines T).length LineStatus.unchanged⟩ := by
  have h := computeLineDiff_eq_keys T T rfl
  rw [h, lineKeys_length]

/-- C3: for all A and B the number of Unchanged lines agrees between
`computeLineDiff A B` and `computeLineDiff B A` on each side, while the
number of Added lines of diff(A,B) can differ from the number of Removed
lines of diff(B,A) when Modified pairs are present (witnessed by
A = "b\na", B = "c\na\nb": 2 added versus 1 removed). -/
theorem c3_unchanged_count_symm :
    (∀ A B : String,
      (computeLineDiff A B).oldStatuses.countP (fun s => s == LineStatus.unchanged)
        = (computeLineDiff B A).oldStatuses.countP (fun s => s == LineStatus.unchanged) ∧
      (computeLineDiff A B).newStatuses.countP (fun s => s == LineStatus.unchanged)
        = (computeLineDiff B A).newStatuses.countP (fun s => s == LineStatus.unchanged)) ∧
    (computeLineDiff "b\na" "c\na\nb").newStatuses.countP
        (fun s => s == LineStatus.added)
      ≠ (computeLineDiff "c\na\nb" "b\na").oldStatuses.countP
        (fun s => s == LineStatus.removed) := by
  constructor
  · intro A B
    constructor
    · rw [countUnchanged_old, countUnchanged_old, lcsCell_comm]
    · rw [countUnchanged_new, countUnchanged_new, lcsCell_comm]
  · rw [computeLineDiff_eval, computeLineDiff_eval]
    decide

/-- C4: the similarity matrix built by the nested loops satisfies the LCS
recurrence — `cell(i,j) = cell(i-1,j-1) + 1` when the keys at `i-1`/`j-1`
agree and `max (cell(i-1,j)) (cell(i,j-1))` otherwise, for `1 ≤ i ≤ n`
and `1 ≤ j ≤ m` — with zero borders `cell(0,j) = cell(i,0) = 0`. -/
theorem c4_matrix_recurrence (ok nk : List String) (i j : Nat) :
    (1 ≤ i → i ≤ ok.length → 1 ≤ j → j ≤ nk.length →
      dpCell ok nk i j =
        if ok.getD (i-1) "" = nk.getD (j-1) "" then dpCell ok nk (i-1) (j-1) + 1
        else max (dpCell ok nk (i-1) j) (dpCell ok nk i (j-1))) ∧
    dpCell ok nk 0 j = 0 ∧ dpCell ok nk i 0 = 0 := by
  refine ⟨?_, dpCell_zero_left ok nk j, dpCell_zero_right ok nk i⟩
  intro h1 h2 h3 h4
  obtain ⟨i', rfl⟩ : ∃ i', i = i' + 1 := ⟨i - 1, by omega⟩
  obtain ⟨j', rfl⟩ : ∃ j', j = j' + 1 := ⟨j - 1, by omega⟩
  simp only [Nat.add_sub_cancel]
  rw [dpCell_eq ok nk (i'+1) (j'+1) h2 h4,
    dpCell_eq ok nk i' j' (by omega) (by omega),
    dpCell_eq ok nk i' (j'+1) (by omega) h4,
    dpCell_eq ok nk (i'+1) j' h2 (by omega),
    lcsCell_succ]

/-- Witness for C4 at the concrete matrix of `["a"]` versus `["a", "b"]`,
checking the recurrence cell (1, 2) and the zero borders. -/
theorem c4_matrix_recurrence_witness :
    dpCell ["a"] ["a", "b"] 1 2 =
      (if (["a"] : List String).getD 0 "" = (["a", "b"] : List String).getD 1 ""
       then dpCell ["a"] ["a", "b"] 0 1 + 1
       else max (dpCell ["a"] ["a", "b"] 0 2) (dpCell ["a"] ["a", "b"] 1 1)) ∧
    dpCell ["a"] ["a", "b"] 0 2 = 0 ∧ dpCell ["a"] ["a", "b"] 1 0 = 0 := by
  have h := c4_matrix_recurrence ["a"] ["a", "b"] 1 2
  exact ⟨h.1 (by decide) (by decide) (by decide) (by decide), h.2.1, h.2.2⟩

/-- C5: the status lists have exactly one entry per line of the
corresponding side's own split, splitting the empty string yields one
empty line, and both outputs are always non-empty. -/
theorem c5_output_lengths (a b : String) :
    (computeLineDiff a b).oldStatuses.length = (splitLines a).length ∧
    (computeLineDiff a b).newStatuses.length = (splitLines b).length ∧
    0 < (computeLineDiff a b).oldStatuses.length ∧
    0 < (computeLineDiff a b).newStatuses.length ∧
    splitLines "" = [""] := by
  refine ⟨diff_old_length a b, diff_new_length a b, ?_, ?_, rfl⟩
  · rw [diff_old_length]
    exact splitLines_ne_nil a
  · rw [diff_new_length]
    exact splitLines_ne_nil b

/-- C6: the forward edit-op sequence mentions each old index exactly once
across Equal/Remove/Modify (in fact in increasing order, yielding exactly
`range n`) and each new index exactly once across Equal/Add/Modify. -/
theorem c6_each_index_once (a b : String) :
    (diffOps a b).filterMap opOldIndex = List.range (splitLines a).length ∧
    (diffOps a b).filterMap opNewIndex = List.range (splitLines b).length := by
  rw [diffOps_oldIndices, diffOps_newIndices, lineKeys_length, lineKeys_length]
  exact ⟨rfl, rfl⟩

/-- C7: `computeLineDiff "a \nb" "a\nb"` marks all lines Unchanged on both
sides — trailing whitespace is stripped from the comparison key. -/
theorem c7_trailing_whitespace :
    computeLineDiff "a \nb" "a\nb"
      = ⟨[LineStatus.unchanged, LineStatus.unchanged],
         [LineStatus.unchanged, LineStatus.unchanged]⟩ := by
  rw [computeLineDiff_eval]
  decide

/-- C8: the engine is total on the model — every emitted op carries only
in-bounds indices, so every projector write lands inside the status
arrays, whose lengths always equal the two line counts. -/
theorem c8_total_inbounds (a b : String) :
    (diffOps a b).all
        (opInBounds (splitLines a).length (splitLines b).length) = true ∧
    (computeLineDiff a b).oldStatuses.length = (splitLines a).length ∧
    (computeLineDiff a b).newStatuses.length = (splitLines b).length := by
  refine ⟨?_, diff_old_length a b, diff_new_length a b⟩
  rw [List.all_eq_true]
  intro op hop
  have hold : ∀ oi, opOldIndex op = some oi → oi < (splitLines a).length := by
    intro oi hoi
    have h1 : oi ∈ (diffOps a b).filterMap opOldIndex :=
      List.mem_filterMap.mpr ⟨op, hop, hoi⟩
    rw [diffOps_oldIndices, lineKeys_length] at h1
    exact List.mem_range.mp h1
  have hnew : ∀ ni, opNewIndex op = some ni → ni < (splitLines b).length := by
    intro ni hni
    have h1 : ni ∈ (diffOps a b).filterMap opNewIndex :=
      List.mem_filterMap.mpr ⟨op, hop, hni⟩
    rw [diffOps_newIndices, lineKeys_length] at h1
    exact List.mem_range.mp h1
  cases op with
  | equal oi ni =>
    have h1 := hold oi rfl
    have h2 := hnew ni rfl
    simp [opInBounds, h1, h2]
  | remove oi =>
    have h1 := hold oi rfl
    simp [opInBounds, h1]
  | add ni =>
    have h2 := hnew ni rfl
    simp [opInBounds, h2]
  | modify oi ni =>
    have h1 := hold oi rfl
    have h2 := hnew ni rfl
    simp [opInBounds, h1, h2]

/-- C9: `computeLineDiff "" "x"` resolves the boundary case to a single
Modify pair: old = [Modified], new = [Modified]. -/
theorem c9_empty_versus_line :
    computeLineDiff "" "x" = ⟨[LineStatus.modified], [LineStatus.modified]⟩ := by
  rw [computeLineDiff_eval]
  decide

/-- C10: texts made of the same lines, one joined with CRLF and one with
LF, diff as all-Unchanged on both sides: splitting is on the newline
character alone and the carriage return is stripped as trailing
whitespace from the comparison key. -/
theorem c10_crlf_lf_unchanged (ls : List (List Char)) (hne : ls ≠ [])
    (h : ∀ l ∈ ls, '\n' ∉ l) :
    computeLineDiff (String.mk (joinWith ['\r', '\n'] ls))
        (String.mk (joinWith ['\n'] ls))
      = ⟨List.replicate ls.length LineStatus.unchanged,
         List.replicate ls.length LineStatus.unchanged⟩ := by
  have hk := lineKeys_crlf_lf ls hne h
  have hres := computeLineDiff_eq_keys _ _ hk
  rw [hres]
  have hlen : (lineKeys (String.mk (joinWith ['\r', '\n'] ls))).length = ls.length := by
    rw [hk, lineKeys_mk, List.length_map, splitCharList_joinWith_lf ls hne h]
  rw [hlen]

/-- Witness for C10 on the two-line text "a", "b": diff of "a\r\nb"
against "a\nb" is all Unchanged. -/
theorem c10_crlf_lf_unchanged_witness :
    computeLineDiff (String.mk (joinWith ['\r', '\n'] [['a'], ['b']]))
        (String.mk (joinWith ['\n'] [['a'], ['b']]))
      = ⟨List.replicate 2 LineStatus.unchanged,
         List.replicate 2 LineStatus.unchanged⟩ :=
  c10_crlf_lf_unchanged [['a'], ['b']] (by decide) (by decide)

end WebTool
